import Mathlib

/-!
Verification of the async listings of chapter 17 (timeout combinator and
interval stream) against their specification.

The combinator under study is, from
`src/listings/ch17-async-await/listing-17-timeout-final/src/main.rs`:

```rust
async fn timeout<F: Future>(
    max_time: Duration,
    future: F,
) -> Result<F::Output, Duration> {
    match trpl::race(future, trpl::sleep(max_time)).await {
        Either::Left(output) => Ok(output),
        Either::Right(_) => Err(max_time),
    }
}
```

Futures are shallowly embedded as explicit state machines polled by a
cooperative scheduler; one scheduling round advances virtual time by one
millisecond, so `sleep d` becomes ready exactly at round `d.millis`.
Awaiting is fuel-bounded: `none` means the computation did not resolve
within the given number of rounds.
-/

namespace Trpl

/-- Model of `std::time::Duration`, at millisecond precision (the only
granularities the listings use are milliseconds and whole seconds). -/
structure Duration where
  millis : Nat
  deriving DecidableEq, Repr

def Duration.from_millis (ms : Nat) : Duration := ⟨ms⟩

def Duration.from_secs (s : Nat) : Duration := ⟨s * 1000⟩

def Duration.as_secs (d : Duration) : Nat := d.millis / 1000

/-- One poll of a future: either still pending with an updated state, or
ready with its output value (mirrors `std::task::Poll`). -/
inductive Poll (σ : Type u) (T : Type v) where
  | pending (s : σ)
  | ready (v : T)

/-- A future as a deterministic state machine: an initial state and a poll
function. -/
structure FutureM (σ : Type u) (T : Type v) where
  init : σ
  poll : σ → Poll σ T

/-- Model of `trpl::Either`, the result type of `trpl::race`. -/
inductive Either (A : Type u) (B : Type v) where
  | Left (a : A)
  | Right (b : B)
  deriving DecidableEq, Repr

/-- Poll function of a sleep timer: the state counts elapsed rounds; ready
once `d` rounds have elapsed. -/
def sleepPoll (d : Nat) : Nat → Poll Nat Unit := fun s =>
  if d ≤ s then .ready () else .pending (s + 1)

/-- Modelled from the spec: `trpl::sleep(duration)` (the crate source is not
in the excerpt) is "an asynchronous operation that resolves after
approximately `duration` has elapsed"; here it resolves exactly at round
`d.millis`. -/
def sleep (d : Duration) : FutureM Nat Unit := ⟨0, sleepPoll d.millis⟩

/-- One fuel unit is one scheduling round: poll the left future first, then
the right, and stop at the first ready result. -/
def raceAux (pa : σa → Poll σa A) (pb : σb → Poll σb B) :
    Nat → σa → σb → Option (Either A B)
  | 0, _, _ => none
  | fuel + 1, sa, sb =>
    match pa sa with
    | .ready a => some (.Left a)
    | .pending sa' =>
      match pb sb with
      | .ready b => some (.Right b)
      | .pending sb' => raceAux pa pb fuel sa' sb'

/-- Modelled from the spec: `trpl::race(a, b)` (the crate source is not in
the excerpt) "resolves with whichever of `a`/`b` completes first, tagged by
side", with the left-operand-precedence tie-break the spec documents. -/
def race (fa : FutureM σa A) (fb : FutureM σb B) (fuel : Nat) :
    Option (Either A B) :=
  raceAux fa.poll fb.poll fuel fa.init fb.init

/-- The `timeout` function of listing-17-timeout-final, with `Result<T,
Duration>` rendered as `Except Duration T` (`Ok` is `.ok`, `Err` is
`.error`). -/
def timeout (max_time : Duration) (future : FutureM σ T) (fuel : Nat) :
    Option (Except Duration T) :=
  match race future (sleep max_time) fuel with
  | some (.Left output) => some (.ok output)
  | some (.Right _) => some (.error max_time)
  | none => none

/-- Awaiting a future directly: poll it alone until ready, within `fuel`
rounds. -/
def awaitAux (p : σ → Poll σ T) : Nat → σ → Option T
  | 0, _ => none
  | fuel + 1, s =>
    match p s with
    | .ready v => some v
    | .pending s' => awaitAux p fuel s'

def await (f : FutureM σ T) (fuel : Nat) : Option T :=
  awaitAux f.poll fuel f.init

/-- The state a poll function reaches after `n` polls that all came back
pending; `none` if the future became ready strictly earlier. -/
def stateAfter (p : σ → Poll σ T) : Nat → σ → Option σ
  | 0, s => some s
  | n + 1, s =>
    match p s with
    | .pending s' => stateAfter p n s'
    | .ready _ => none

/-- The future is pending for its first `r` polls and ready with value `v`
on the next one: polled in isolation it resolves at round `r`. -/
def resolvesAt (f : FutureM σ T) (r : Nat) (v : T) : Prop :=
  ∃ s', stateAfter f.poll r f.init = some s' ∧ f.poll s' = .ready v

/-- A future that sleeps for `t` and then yields `v`, like the `slow` async
block of the demo or the scenario operations of the spec. -/
def sleepThen (t : Duration) (v : T) : FutureM Nat T :=
  ⟨0, fun s => if t.millis ≤ s then .ready v else .pending (s + 1)⟩

/-- The `slow` future of the demo `main`: sleep 5 seconds, then yield. -/
def slowFuture : FutureM Nat String :=
  sleepThen (Duration.from_secs 5) "Finally finished"

/-- Outcome of the demo `main`'s `timeout` call. -/
def mainResult (fuel : Nat) : Option (Except Duration String) :=
  timeout (Duration.from_secs 2) slowFuture fuel

/-- The line the demo `main` prints for that outcome. -/
def mainMessage (fuel : Nat) : Option String :=
  match mainResult fuel with
  | some (.ok message) => some ("Succeeded with '" ++ message ++ "'")
  | some (.error duration) =>
      some ("Failed after " ++ toString duration.as_secs ++ " seconds")
  | none => none

/-- Two futures are bisimilar when a relation on their states links the
initial states and is preserved by polling, with identical ready results:
they are structurally independent copies of equivalent operations. -/
def Bisim (R : σ₁ → σ₂ → Prop) (f : FutureM σ₁ T) (g : FutureM σ₂ T) :
    Prop :=
  R f.init g.init ∧
  ∀ s₁ s₂, R s₁ s₂ →
    (∀ v, f.poll s₁ = .ready v ↔ g.poll s₂ = .ready v) ∧
    (∀ s₁' s₂', f.poll s₁ = .pending s₁' → g.poll s₂ = .pending s₂' →
      R s₁' s₂')

/-- A behavioural copy of `sleepThen` whose state counts down instead of
up: same observable schedule, different state representation. -/
def countdownSleepThen (t : Duration) (v : T) : FutureM Nat T :=
  ⟨t.millis, fun s => if s = 0 then .ready v else .pending (s - 1)⟩

/-- The race loop instrumented with poll counters for each branch:
`raceCountAux pa pb fuel sa sb ca cb` returns the race result together
with the final number of polls issued to the left and right branches. -/
def raceCountAux (pa : σa → Poll σa A) (pb : σb → Poll σb B) :
    Nat → σa → σb → Nat → Nat → Option (Either A B) × Nat × Nat
  | 0, _, _, ca, cb => (none, ca, cb)
  | fuel + 1, sa, sb, ca, cb =>
    match pa sa with
    | .ready a => (some (.Left a), ca + 1, cb)
    | .pending sa' =>
      match pb sb with
      | .ready b => (some (.Right b), ca + 1, cb + 1)
      | .pending sb' => raceCountAux pa pb fuel sa' sb' (ca + 1) (cb + 1)

/-- The spawned-task loop of `get_intervals` in listing-17-39: starting
from `count = 0`, each iteration sleeps 1 ms, increments `count`, and
sends it; the loop breaks when a send fails (the failed value is not
delivered). `sendOk v` tells whether sending value `v` succeeds; `fuel`
bounds the number of iterations of the otherwise infinite loop. -/
def intervalsLoop (sendOk : Nat → Bool) : Nat → Nat → List Nat
  | 0, _ => []
  | fuel + 1, count =>
    if sendOk (count + 1) then (count + 1) :: intervalsLoop sendOk fuel (count + 1)
    else []

/-- The sequence of values `get_intervals`'s task successfully sends on
its channel, within `fuel` iterations. -/
def get_intervals_sent (sendOk : Nat → Bool) (fuel : Nat) : List Nat :=
  intervalsLoop sendOk fuel 0

/-- Number of values sent before the loop stops (or the fuel runs out). -/
def sentCount (sendOk : Nat → Bool) (fuel : Nat) : Nat :=
  (get_intervals_sent sendOk fuel).length

end Trpl

namespace Trpl

theorem stateAfter_succ {p : σ → Poll σ T} {s : σ} {n : Nat} :
    stateAfter p (n + 1) s =
      match p s with
      | .pending s' => stateAfter p n s'
      | .ready _ => none := rfl

theorem stateAfter_isSome_succ {p : σ → Poll σ T} {s : σ} {n : Nat}
    (h : (stateAfter p (n + 1) s).isSome) :
    ∃ s1, p s = .pending s1 ∧ (stateAfter p n s1).isSome := by
  rw [stateAfter_succ] at h
  cases hp : p s with
  | pending s1 => exact ⟨s1, rfl, by rw [hp] at h; exact h⟩
  | ready v => rw [hp] at h; simp at h

theorem stateAfter_isSome_of_le {p : σ → Poll σ T} :
    ∀ {m n : Nat} {s : σ}, m ≤ n → (stateAfter p n s).isSome →
      (stateAfter p m s).isSome := by
  intro m
  induction m with
  | zero => intro n s _ _; simp [stateAfter]
  | succ m ih =>
    intro n s hmn h
    obtain ⟨n', rfl⟩ : ∃ n', n = n' + 1 := ⟨n - 1, by omega⟩
    obtain ⟨s1, hp, h1⟩ := stateAfter_isSome_succ h
    rw [stateAfter_succ, hp]
    exact ih (by omega) h1

theorem awaitAux_of_resolves {p : σ → Poll σ T} :
    ∀ {r : Nat} {s s' : σ} {v : T} {fuel : Nat},
      stateAfter p r s = some s' → p s' = .ready v → r < fuel →
      awaitAux p fuel s = some v := by
  intro r
  induction r with
  | zero =>
    intro s s' v fuel h1 h2 hf
    obtain ⟨f, rfl⟩ : ∃ f, fuel = f + 1 := ⟨fuel - 1, by omega⟩
    simp [stateAfter] at h1
    subst h1
    simp [awaitAux, h2]
  | succ r ih =>
    intro s s' v fuel h1 h2 hf
    obtain ⟨f, rfl⟩ : ∃ f, fuel = f + 1 := ⟨fuel - 1, by omega⟩
    rw [stateAfter_succ] at h1
    cases hp : p s with
    | pending s1 =>
      rw [hp] at h1
      simp [awaitAux, hp]
      exact ih h1 h2 (by omega)
    | ready w => rw [hp] at h1; simp at h1

theorem await_of_resolvesAt {f : FutureM σ T} {r : Nat} {v : T} {fuel : Nat}
    (hres : resolvesAt f r v) (hfuel : r < fuel) :
    await f fuel = some v := by
  obtain ⟨s', h1, h2⟩ := hres
  exact awaitAux_of_resolves h1 h2 hfuel

theorem raceAux_left_of_resolves {pa : σa → Poll σa A} {d : Nat} :
    ∀ {r : Nat} {sa sa' : σa} {j fuel : Nat} {v : A},
      stateAfter pa r sa = some sa' → pa sa' = .ready v →
      j + r ≤ d → r < fuel →
      raceAux pa (sleepPoll d) fuel sa j = some (.Left v) := by
  intro r
  induction r with
  | zero =>
    intro sa sa' j fuel v h1 h2 hd hf
    obtain ⟨f, rfl⟩ : ∃ f, fuel = f + 1 := ⟨fuel - 1, by omega⟩
    simp [stateAfter] at h1
    subst h1
    simp [raceAux, h2]
  | succ r ih =>
    intro sa sa' j fuel v h1 h2 hd hf
    obtain ⟨f, rfl⟩ : ∃ f, fuel = f + 1 := ⟨fuel - 1, by omega⟩
    rw [stateAfter_succ] at h1
    cases hp : pa sa with
    | pending s1 =>
      rw [hp] at h1
      have hj : ¬ d ≤ j := by omega
      simp [raceAux, hp, sleepPoll, hj]
      exact ih h1 h2 (by omega) (by omega)
    | ready w => rw [hp] at h1; simp at h1

theorem raceAux_right_of_pending {pa : σa → Poll σa A} :
    ∀ {k : Nat} {d j fuel : Nat} {sa : σa},
      j + k = d →
      (stateAfter pa (k + 1) sa).isSome →
      k < fuel →
      raceAux pa (sleepPoll d) fuel sa j = some (.Right ()) := by
  intro k
  induction k with
  | zero =>
    intro d j fuel sa hjk h hf
    obtain ⟨f, rfl⟩ : ∃ f, fuel = f + 1 := ⟨fuel - 1, by omega⟩
    obtain ⟨s1, hp, _⟩ := stateAfter_isSome_succ h
    have hj : d ≤ j := by omega
    simp [raceAux, hp, sleepPoll, hj]
  | succ k ih =>
    intro d j fuel sa hjk h hf
    obtain ⟨f, rfl⟩ : ∃ f, fuel = f + 1 := ⟨fuel - 1, by omega⟩
    obtain ⟨s1, hp, h1⟩ := stateAfter_isSome_succ h
    have hj : ¬ d ≤ j := by omega
    simp [raceAux, hp, sleepPoll, hj]
    exact ih (by omega) h1 (by omega)

theorem timeout_ok_of_resolvesAt {f : FutureM σ T} {d : Duration} {r : Nat}
    {v : T} {fuel : Nat}
    (hres : resolvesAt f r v) (hr : r ≤ d.millis) (hfuel : r < fuel) :
    timeout d f fuel = some (.ok v) := by
  obtain ⟨s', h1, h2⟩ := hres
  have hrace : race f (sleep d) fuel = some (.Left v) := by
    show raceAux f.poll (sleepPoll d.millis) fuel f.init 0 = some (.Left v)
    exact raceAux_left_of_resolves h1 h2 (by omega) hfuel
  simp [timeout, hrace]

theorem timeout_err_of_pending {f : FutureM σ T} {d : Duration} {fuel : Nat}
    (hp : (stateAfter f.poll (d.millis + 1) f.init).isSome)
    (hfuel : d.millis < fuel) :
    timeout d f fuel = some (.error d) := by
  have hrace : race f (sleep d) fuel = some (.Right ()) := by
    show raceAux f.poll (sleepPoll d.millis) fuel f.init 0 = some (.Right ())
    exact raceAux_right_of_pending (by omega) hp hfuel
  simp [timeout, hrace]

theorem stateAfter_sleepThen {t : Duration} {v : T} :
    ∀ {k s : Nat}, s + k ≤ t.millis →
      stateAfter (sleepThen t v).poll k s = some (s + k) := by
  intro k
  induction k with
  | zero => intro s _; simp [stateAfter]
  | succ k ih =>
    intro s hk
    have hs : ¬ t.millis ≤ s := by omega
    have hp : (sleepThen t v).poll s = .pending (s + 1) := by
      simp [sleepThen, hs]
    rw [stateAfter_succ, hp]
    show stateAfter (sleepThen t v).poll k (s + 1) = some (s + (k + 1))
    rw [ih (by omega)]
    congr 1
    omega

theorem resolvesAt_sleepThen (t : Duration) (v : T) :
    resolvesAt (sleepThen t v) t.millis v := by
  refine ⟨t.millis, ?_, ?_⟩
  · have := stateAfter_sleepThen (t := t) (v := v) (k := t.millis) (s := 0)
      (by omega)
    simpa using this
  · simp [sleepThen]

theorem sleepThen_pending_isSome {t : Duration} {v : T} {k : Nat}
    (hk : k ≤ t.millis) :
    (stateAfter (sleepThen t v).poll k 0).isSome := by
  have := stateAfter_sleepThen (t := t) (v := v) (k := k) (s := 0) (by omega)
  simp at this
  simp [this]

theorem raceAux_bisim {f : FutureM σ₁ T} {g : FutureM σ₂ T}
    {R : σ₁ → σ₂ → Prop}
    (hstep : ∀ s₁ s₂, R s₁ s₂ →
      (∀ v, f.poll s₁ = .ready v ↔ g.poll s₂ = .ready v) ∧
      (∀ s₁' s₂', f.poll s₁ = .pending s₁' → g.poll s₂ = .pending s₂' →
        R s₁' s₂'))
    {pb : σb → Poll σb B} :
    ∀ {fuel : Nat} {s₁ : σ₁} {s₂ : σ₂} {sb : σb}, R s₁ s₂ →
      raceAux f.poll pb fuel s₁ sb = raceAux g.poll pb fuel s₂ sb := by
  intro fuel
  induction fuel with
  | zero => intro s₁ s₂ sb _; rfl
  | succ fuel ih =>
    intro s₁ s₂ sb hR
    obtain ⟨hready, hpend⟩ := hstep s₁ s₂ hR
    cases h1 : f.poll s₁ with
    | ready v =>
      have h2 : g.poll s₂ = .ready v := (hready v).mp h1
      simp [raceAux, h1, h2]
    | pending s₁' =>
      cases h2 : g.poll s₂ with
      | ready w =>
        have hc : f.poll s₁ = .ready w := (hready w).mpr h2
        rw [h1] at hc
        exact Poll.noConfusion hc
      | pending s₂' =>
        have hR' := hpend s₁' s₂' h1 h2
        cases hb : pb sb with
        | ready b => simp [raceAux, h1, h2, hb]
        | pending sb' =>
          simp [raceAux, h1, h2, hb]
          exact ih hR'

theorem timeout_bisim {f : FutureM σ₁ T} {g : FutureM σ₂ T}
    {R : σ₁ → σ₂ → Prop} (h : Bisim R f g) (d : Duration) (fuel : Nat) :
    timeout d f fuel = timeout d g fuel := by
  obtain ⟨hinit, hstep⟩ := h
  have hr : race f (sleep d) fuel = race g (sleep d) fuel := by
    show raceAux f.poll (sleepPoll d.millis) fuel f.init 0
       = raceAux g.poll (sleepPoll d.millis) fuel g.init 0
    exact raceAux_bisim hstep hinit
  simp [timeout, hr]

theorem bisim_sleepThen_countdown (t : Duration) (v : T) :
    Bisim (fun a b => a + b = t.millis)
      (sleepThen t v) (countdownSleepThen t v) := by
  constructor
  · simp [sleepThen, countdownSleepThen]
  · intro s₁ s₂ hR
    constructor
    · intro w
      by_cases h1 : t.millis ≤ s₁
      · have h2 : s₂ = 0 := by omega
        simp [sleepThen, countdownSleepThen, h1, h2]
      · have h2 : ¬ s₂ = 0 := by omega
        simp [sleepThen, countdownSleepThen, h1, h2]
    · intro s₁' s₂' h1 h2
      by_cases hc : t.millis ≤ s₁
      · simp [sleepThen, hc] at h1
      · simp [sleepThen, hc] at h1
        have hz : ¬ s₂ = 0 := by omega
        simp [countdownSleepThen, hz] at h2
        omega

theorem raceCountAux_fst {pa : σa → Poll σa A} {pb : σb → Poll σb B} :
    ∀ {fuel : Nat} {sa : σa} {sb : σb} {ca cb : Nat},
      (raceCountAux pa pb fuel sa sb ca cb).1 = raceAux pa pb fuel sa sb := by
  intro fuel
  induction fuel with
  | zero => intros; rfl
  | succ fuel ih =>
    intro sa sb ca cb
    cases h1 : pa sa with
    | ready a => simp [raceCountAux, raceAux, h1]
    | pending sa' =>
      cases h2 : pb sb with
      | ready b => simp [raceCountAux, raceAux, h1, h2]
      | pending sb' =>
        simp [raceCountAux, raceAux, h1, h2]
        exact ih

theorem raceCountAux_left_counts {pa : σa → Poll σa A}
    {pb : σb → Poll σb B} :
    ∀ {fuel : Nat} {sa : σa} {sb : σb} {ca cb ca' cb' : Nat} {a : A},
      raceCountAux pa pb fuel sa sb ca cb = (some (.Left a), ca', cb') →
      ∃ k, ca' = ca + k + 1 ∧ cb' = cb + k := by
  intro fuel
  induction fuel with
  | zero =>
    intro sa sb ca cb ca' cb' a h
    simp [raceCountAux] at h
  | succ fuel ih =>
    intro sa sb ca cb ca' cb' a h
    cases h1 : pa sa with
    | ready a' =>
      simp [raceCountAux, h1] at h
      exact ⟨0, by omega, by omega⟩
    | pending sa' =>
      cases h2 : pb sb with
      | ready b =>
        simp [raceCountAux, h1, h2] at h
      | pending sb' =>
        simp only [raceCountAux, h1, h2] at h
        obtain ⟨k, hk1, hk2⟩ := ih h
        exact ⟨k + 1, by omega, by omega⟩

theorem raceCountAux_right_counts {pa : σa → Poll σa A}
    {pb : σb → Poll σb B} :
    ∀ {fuel : Nat} {sa : σa} {sb : σb} {ca cb ca' cb' : Nat} {b : B},
      raceCountAux pa pb fuel sa sb ca cb = (some (.Right b), ca', cb') →
      ∃ k, ca' = ca + k + 1 ∧ cb' = cb + k + 1 := by
  intro fuel
  induction fuel with
  | zero =>
    intro sa sb ca cb ca' cb' b h
    simp [raceCountAux] at h
  | succ fuel ih =>
    intro sa sb ca cb ca' cb' b h
    cases h1 : pa sa with
    | ready a' =>
      simp [raceCountAux, h1] at h
    | pending sa' =>
      cases h2 : pb sb with
      | ready b' =>
        simp [raceCountAux, h1, h2] at h
        exact ⟨0, by omega, by omega⟩
      | pending sb' =>
        simp only [raceCountAux, h1, h2] at h
        obtain ⟨k, hk1, hk2⟩ := ih h
        exact ⟨k + 1, by omega, by omega⟩

theorem raceAux_stable {pa : σa → Poll σa A} {pb : σb → Poll σb B} :
    ∀ {fuel : Nat} {sa : σa} {sb : σb} {r : Either A B} {m : Nat},
      raceAux pa pb fuel sa sb = some r →
      raceAux pa pb (fuel + m) sa sb = some r := by
  intro fuel
  induction fuel with
  | zero => intro sa sb r m h; simp [raceAux] at h
  | succ fuel ih =>
    intro sa sb r m h
    have he : fuel + 1 + m = (fuel + m) + 1 := by omega
    rw [he]
    cases h1 : pa sa with
    | ready a =>
      simp [raceAux, h1] at h ⊢
      exact h
    | pending sa' =>
      cases h2 : pb sb with
      | ready b =>
        simp [raceAux, h1, h2] at h ⊢
        exact h
      | pending sb' =>
        simp only [raceAux, h1, h2] at h ⊢
        exact ih h

theorem intervalsLoop_spec (sendOk : Nat → Bool) :
    ∀ (fuel c : Nat),
      intervalsLoop sendOk fuel c =
        List.range' (c + 1) (intervalsLoop sendOk fuel c).length ∧
      (intervalsLoop sendOk fuel c).length ≤ fuel ∧
      ((intervalsLoop sendOk fuel c).length < fuel →
        sendOk (c + (intervalsLoop sendOk fuel c).length + 1) = false) := by
  intro fuel
  induction fuel with
  | zero => intro c; simp [intervalsLoop]
  | succ fuel ih =>
    intro c
    by_cases h : sendOk (c + 1)
    · have hunf : intervalsLoop sendOk (fuel + 1) c
          = (c + 1) :: intervalsLoop sendOk fuel (c + 1) := by
        simp [intervalsLoop, h]
      obtain ⟨ih1, ih2, ih3⟩ := ih (c + 1)
      refine ⟨?_, ?_, ?_⟩
      · rw [hunf, List.length_cons, List.range'_succ]
        exact congrArg (List.cons (c + 1)) ih1
      · rw [hunf, List.length_cons]
        omega
      · rw [hunf, List.length_cons]
        intro hlt
        have hres := ih3 (by omega)
        have he : c + 1 + (intervalsLoop sendOk fuel (c + 1)).length + 1
            = c + ((intervalsLoop sendOk fuel (c + 1)).length + 1) + 1 := by
          omega
        rw [he] at hres
        exact hres
    · have hunf : intervalsLoop sendOk (fuel + 1) c = [] := by
        simp [intervalsLoop, h]
      refine ⟨by rw [hunf]; simp, by rw [hunf]; simp, ?_⟩
      rw [hunf]
      intro _
      simpa using h

/-- C1: Completion precedence. For every deadline and every operation that
resolves strictly before the deadline, `timeout` returns the Completed/Ok
variant whose payload equals exactly the value the operation would have
produced if awaited directly. -/
theorem completion_precedence {σ : Type u} {T : Type v}
    (d : Duration) (f : FutureM σ T) (r : Nat) (v : T) (fuel : Nat)
    (hres : resolvesAt f r v) (hlt : r < d.millis) (hfuel : r < fuel) :
    timeout d f fuel = some (.ok v) ∧ await f fuel = some v :=
  ⟨timeout_ok_of_resolvesAt hres (by omega) hfuel,
   await_of_resolvesAt hres hfuel⟩

theorem completion_precedence_witness :
    timeout (Duration.from_millis 500)
        (sleepThen (Duration.from_millis 200) "done") 501
      = some (.ok "done") ∧
    await (sleepThen (Duration.from_millis 200) "done") 501 = some "done" :=
  completion_precedence (Duration.from_millis 500)
    (sleepThen (Duration.from_millis 200) "done") 200 "done" 501
    (resolvesAt_sleepThen (Duration.from_millis 200) "done")
    (by decide) (by decide)

/-- C2: Expiry precedence. For every deadline and every operation that
never resolves, or resolves strictly after the deadline, `timeout` returns
the Expired/Err variant whose payload is exactly the deadline argument. -/
theorem expiry_precedence {σ : Type u} {T : Type v}
    (d : Duration) (f : FutureM σ T) (fuel : Nat)
    (h : (∀ n, (stateAfter f.poll n f.init).isSome) ∨
         (∃ r v, resolvesAt f r v ∧ d.millis < r))
    (hfuel : d.millis < fuel) :
    timeout d f fuel = some (.error d) := by
  apply timeout_err_of_pending ?_ hfuel
  rcases h with h | ⟨r, v, ⟨s', h1, _⟩, hr⟩
  · exact h (d.millis + 1)
  · exact stateAfter_isSome_of_le (m := d.millis + 1) (n := r)
      (by omega) (by simp [h1])

theorem expiry_precedence_witness :
    timeout (Duration.from_millis 200)
        (sleepThen (Duration.from_millis 500) "done") 201
      = some (.error (Duration.from_millis 200)) :=
  expiry_precedence (Duration.from_millis 200)
    (sleepThen (Duration.from_millis 500) "done") 201
    (Or.inr ⟨500, "done",
      resolvesAt_sleepThen (Duration.from_millis 500) "done", by decide⟩)
    (by decide)

/-- C3: Left-bias tie-break. If the operation and the timer become ready in
the same scheduling round (including an already-ready operation against any
timer), `timeout` resolves to Completed, not Expired; and `timeout` is by
definition the race with the operation as left operand. -/
theorem left_bias_tie_break (d e : Duration)
    (f : FutureM σ₁ T₁) (g : FutureM σ₂ T₂)
    (v : T₁) (w : T₂) (fuel fuel2 : Nat) :
    (resolvesAt f d.millis v → d.millis < fuel →
      timeout d f fuel = some (.ok v)) ∧
    (resolvesAt g 0 w → 0 < fuel2 → timeout e g fuel2 = some (.ok w)) ∧
    (timeout d f fuel =
      match race f (sleep d) fuel with
      | some (.Left output) => some (.ok output)
      | some (.Right _) => some (.error d)
      | none => none) :=
  ⟨fun hres hfuel => timeout_ok_of_resolvesAt hres (by omega) hfuel,
   fun hres hfuel => timeout_ok_of_resolvesAt hres (by omega) hfuel,
   rfl⟩

theorem left_bias_tie_break_witness :
    timeout (Duration.from_millis 5)
        (sleepThen (Duration.from_millis 5) "tie") 6
      = some (.ok "tie") ∧
    timeout (Duration.from_millis 300)
        (sleepThen (Duration.from_millis 0) "ready") 1
      = some (.ok "ready") := by
  have h := left_bias_tie_break (Duration.from_millis 5)
    (Duration.from_millis 300)
    (sleepThen (Duration.from_millis 5) "tie")
    (sleepThen (Duration.from_millis 0) "ready") "tie" "ready" 6 1
  exact ⟨h.1 (resolvesAt_sleepThen (Duration.from_millis 5) "tie") (by decide),
    h.2.1 (resolvesAt_sleepThen (Duration.from_millis 0) "ready") (by decide)⟩

/-- C4: Exactly one outcome. Assuming the underlying race resolves, every
invocation of `timeout` resolves, and its result is exactly one of the
Ok/Completed and Err/Expired variants, never both and never neither. -/
theorem exactly_one_outcome {σ : Type u} {T : Type v}
    (d : Duration) (f : FutureM σ T) (fuel : Nat)
    (hrace : (race f (sleep d) fuel).isSome) :
    ∃ res, timeout d f fuel = some res ∧
      Xor' (∃ v, res = Except.ok v) (res = Except.error d) := by
  cases hr : race f (sleep d) fuel with
  | none => rw [hr] at hrace; simp at hrace
  | some er =>
    cases er with
    | Left a =>
      exact ⟨.ok a, by simp [timeout, hr], Or.inl ⟨⟨a, rfl⟩, by simp⟩⟩
    | Right b =>
      exact ⟨.error d, by simp [timeout, hr], Or.inr ⟨rfl, by simp⟩⟩

theorem exactly_one_outcome_witness :
    ∃ res, timeout (Duration.from_millis 0)
        (sleepThen (Duration.from_millis 0) "x") 1 = some res ∧
      Xor' (∃ v, res = Except.ok v)
        (res = Except.error (Duration.from_millis 0)) :=
  exactly_one_outcome (Duration.from_millis 0)
    (sleepThen (Duration.from_millis 0) "x") 1 (by decide)

/-- C5: Zero-duration edge case. With deadline 0, an already-ready
operation still yields Completed under the left-bias rule, while an
operation requiring at least one suspension point yields Expired(0). -/
theorem zero_deadline_edge (f : FutureM σ₁ T₁) (g : FutureM σ₂ T₂)
    (v : T₁) (fuel fuel2 : Nat) :
    (resolvesAt f 0 v → 0 < fuel →
      timeout (Duration.from_millis 0) f fuel = some (.ok v)) ∧
    ((∃ s', g.poll g.init = .pending s') → 0 < fuel2 →
      timeout (Duration.from_millis 0) g fuel2
        = some (.error (Duration.from_millis 0))) := by
  constructor
  · intro hres hfuel
    exact timeout_ok_of_resolvesAt hres (by omega) hfuel
  · rintro ⟨s', hp⟩ hfuel
    apply timeout_err_of_pending ?_ hfuel
    rw [stateAfter_succ, hp]
    simp [stateAfter]

theorem zero_deadline_edge_witness :
    timeout (Duration.from_millis 0)
        (sleepThen (Duration.from_millis 0) "now") 1
      = some (.ok "now") ∧
    timeout (Duration.from_millis 0)
        (sleepThen (Duration.from_millis 3) "later") 1
      = some (.error (Duration.from_millis 0)) := by
  have h := zero_deadline_edge (sleepThen (Duration.from_millis 0) "now")
    (sleepThen (Duration.from_millis 3) "later") "now" 1 1
  exact ⟨h.1 (resolvesAt_sleepThen (Duration.from_millis 0) "now") (by decide),
    h.2 ⟨1, rfl⟩ (by decide)⟩

/-- C6: Error opacity. The combinator has no fallible outcome other than
Expired: when the operation's output type itself encodes an error value
and the operation resolves before the deadline, that error value surfaces
unmodified inside the Completed payload. -/
theorem error_payload_opaque {σ : Type u} {E : Type v} {A : Type w}
    (d : Duration) (f : FutureM σ (Except E A)) (r : Nat) (ev : E)
    (fuel : Nat) (hres : resolvesAt f r (Except.error ev))
    (hlt : r < d.millis) (hfuel : r < fuel) :
    timeout d f fuel = some (.ok (.error ev)) :=
  timeout_ok_of_resolvesAt hres (by omega) hfuel

theorem error_payload_opaque_witness :
    timeout (Duration.from_millis 10)
        (sleepThen (Duration.from_millis 1)
          (Except.error "boom" : Except String Nat)) 11
      = some (.ok (.error "boom")) :=
  error_payload_opaque (Duration.from_millis 10)
    (sleepThen (Duration.from_millis 1)
      (Except.error "boom" : Except String Nat)) 1 "boom" 11
    (resolvesAt_sleepThen (Duration.from_millis 1)
      (Except.error "boom" : Except String Nat))
    (by decide) (by decide)

/-- C7: Purity. `timeout` keeps no state across calls: invoked with the
same deadline on two structurally independent copies of an equivalent
operation (bisimilar state machines), it produces the same outcome. -/
theorem timeout_pure {σ₁ : Type u} {σ₂ : Type u'} {T : Type v}
    (d : Duration) (f : FutureM σ₁ T) (g : FutureM σ₂ T)
    (R : σ₁ → σ₂ → Prop) (fuel : Nat) (h : Bisim R f g) :
    timeout d f fuel = timeout d g fuel :=
  timeout_bisim h d fuel

theorem timeout_pure_witness :
    timeout (Duration.from_millis 10)
        (sleepThen (Duration.from_millis 3) "ok") 11
      = timeout (Duration.from_millis 10)
        (countdownSleepThen (Duration.from_millis 3) "ok") 11 :=
  timeout_pure (Duration.from_millis 10)
    (sleepThen (Duration.from_millis 3) "ok")
    (countdownSleepThen (Duration.from_millis 3) "ok")
    (fun a b => a + b = (Duration.from_millis 3).millis) 11
    (bisim_sleepThen_countdown (Duration.from_millis 3) "ok")

/-- C8: Loser abandonment. Once one branch of the race is reported as won
the other branch is never polled again (the winner is polled one final
deciding time, the loser's poll count stops strictly before), and the
decision is terminal: extra scheduling rounds never change the result. -/
theorem race_loser_abandoned (pa : σa → Poll σa A) (pb : σb → Poll σb B)
    (fuel : Nat) (sa : σa) (sb : σb) :
    (∀ (a : A) (ca cb : Nat),
      raceCountAux pa pb fuel sa sb 0 0 = (some (.Left a), ca, cb) →
      cb + 1 = ca) ∧
    (∀ (b : B) (ca cb : Nat),
      raceCountAux pa pb fuel sa sb 0 0 = (some (.Right b), ca, cb) →
      ca = cb) ∧
    (∀ (r : Either A B) (m : Nat),
      raceAux pa pb fuel sa sb = some r →
      raceAux pa pb (fuel + m) sa sb = some r) ∧
    (raceCountAux pa pb fuel sa sb 0 0).1 = raceAux pa pb fuel sa sb := by
  refine ⟨?_, ?_, ?_, raceCountAux_fst⟩
  · intro a ca cb h
    obtain ⟨k, h1, h2⟩ := raceCountAux_left_counts h
    omega
  · intro b ca cb h
    obtain ⟨k, h1, h2⟩ := raceCountAux_right_counts h
    omega
  · intro r m h
    exact raceAux_stable h

theorem race_loser_abandoned_witness :
    raceCountAux (sleepThen (Duration.from_millis 2) "w").poll
        (sleepPoll 5) 6 0 0 0 0
      = (some (Either.Left "w"), 3, 2) ∧
    (2 : Nat) + 1 = 3 := by
  have h := race_loser_abandoned
    (sleepThen (Duration.from_millis 2) "w").poll (sleepPoll 5) 6 0 0
  have hc : raceCountAux (sleepThen (Duration.from_millis 2) "w").poll
      (sleepPoll 5) 6 0 0 0 0 = (some (Either.Left "w"), 3, 2) := rfl
  exact ⟨hc, h.1 "w" 3 2 hc⟩

/-- C9: The demo program races a future that sleeps 5 seconds before
yielding "Finally finished" against a 2-second deadline, so its match
always takes the Err branch with payload exactly 2 seconds, prints
"Failed after 2 seconds", and the Ok branch is unreachable. -/
theorem demo_always_expires (fuel : Nat) (h : 2000 < fuel) :
    mainResult fuel = some (.error (Duration.from_secs 2)) ∧
    mainMessage fuel = some "Failed after 2 seconds" ∧
    ∀ m, mainResult fuel ≠ some (.ok m) := by
  have hres : mainResult fuel = some (.error (Duration.from_secs 2)) := by
    apply timeout_err_of_pending ?_ (show (2000 : Nat) < fuel from h)
    exact sleepThen_pending_isSome (by decide)
  refine ⟨hres, ?_, ?_⟩
  · rw [mainMessage, hres]
    rfl
  · intro m
    rw [hres]
    simp

theorem demo_always_expires_witness :
    mainResult 2001 = some (.error (Duration.from_secs 2)) ∧
    mainMessage 2001 = some "Failed after 2 seconds" ∧
    mainResult 2001 ≠ some (.ok "Finally finished") :=
  ⟨(demo_always_expires 2001 (by decide)).1,
   (demo_always_expires 2001 (by decide)).2.1,
   (demo_always_expires 2001 (by decide)).2.2 "Finally finished"⟩

/-- C10: The task spawned by `get_intervals` sends a strictly increasing
sequence of consecutive integers starting at 1 (the values sent are
exactly `1, 2, ..., k`, so each is one greater than the previous), and
sending stops before the fuel bound only when a send fails. -/
theorem intervals_consecutive (sendOk : Nat → Bool) (fuel : Nat) :
    get_intervals_sent sendOk fuel
      = List.range' 1 (sentCount sendOk fuel) ∧
    sentCount sendOk fuel ≤ fuel ∧
    (∀ i, i < sentCount sendOk fuel →
      (get_intervals_sent sendOk fuel)[i]? = some (i + 1)) ∧
    (sentCount sendOk fuel < fuel →
      sendOk (sentCount sendOk fuel + 1) = false) := by
  obtain ⟨h1, h2, h3⟩ := intervalsLoop_spec sendOk fuel 0
  have h1' : get_intervals_sent sendOk fuel
      = List.range' 1 (sentCount sendOk fuel) := h1
  refine ⟨h1', h2, ?_, ?_⟩
  · intro i hi
    rw [h1', List.getElem?_range' 1 1 hi]
    congr 1
    omega
  · intro hlt
    simpa [sentCount, get_intervals_sent] using h3 hlt

theorem intervals_consecutive_witness :
    get_intervals_sent (fun n => decide (n ≤ 3)) 5
      = List.range' 1 (sentCount (fun n => decide (n ≤ 3)) 5) ∧
    (get_intervals_sent (fun n => decide (n ≤ 3)) 5)[1]?
      = some 2 ∧
    (fun n => decide (n ≤ 3)) (sentCount (fun n => decide (n ≤ 3)) 5 + 1)
      = false := by
  have h := intervals_consecutive (fun n => decide (n ≤ 3)) 5
  exact ⟨h.1, h.2.2.1 1 (by decide), h.2.2.2 (by decide)⟩

end Trpl
